import Mathlib

/-!
Verification of the class-scheduling engine (`cmd/class_scheduler/main.go`).

The program stores its data in an ordered, transactional key-value store.
Keys are order-preserving tuple encodings placed in one of two subspaces of
the `scheduling` directory: `class` keys `("class", className)` and
`attends` keys `("attends", studentID, className)`.  Since the tuple codec
is order preserving and the two subspace prefixes are distinct constants,
we embed encoded keys as an inductive type carrying the decoded fields,
ordered lexicographically (the `attends` prefix sorts before the `class`
prefix, matching the byte order of the encoded prefixes).  String
comparison is lexicographic comparison of the character sequences, which
is what byte-wise comparison of the order-preserving encodings yields.

The store itself is embedded as a key-sorted association list, which is
exactly the observable behaviour of the ordered store: `get` finds the
value bound to a key, `set` inserts or replaces preserving key order,
`clear` deletes a key, `clearRange` deletes every key of a range, and a
range read of a subspace returns its entries in ascending key order.

The scheduling operations are translated from the Go source:
  * `signup` (main.go 174-182): one transaction that only executes
    `tr.Set(attendSS.Pack({studentID, class}), []byte{})`.
  * `drop` (main.go 187-195): one transaction that only executes
    `tr.Clear(attendSS.Pack({studentID, class}))`.
  * the initialization block (main.go 132-141): one transaction that
    executes `tr.ClearRange(schedulingDir)` and then sets
    `courseSS.Pack({name})` to `strconv.FormatInt(seats, 10)` for each
    class name (the program instantiates it with seats = 100).
  * `availableClasses` (main.go 149-167): a read-only transaction that
    iterates `tr.GetRange(courseSS, ...)` and unpacks each key.
  * the manual (non-`Transact`) signup variant (main.go 58-98): an
    explicit retry loop around `tr.Commit()` and `tr.OnError`.

Values are byte strings; the attendance marker is the empty value and the
seat counts are decimal strings, so the value type is `String`.
-/

/-- Lexicographic order on strings: strict lexicographic order on the
character sequences.  Byte-wise comparison of the order-preserving tuple
encoding of two strings orders them exactly this way. -/
def strLt (s t : String) : Prop := List.Lex (· < ·) s.data t.data

instance strLt.decRel (s t : String) : Decidable (strLt s t) :=
  inferInstanceAs (Decidable (List.Lex _ _ _))

theorem strLt_trans {a b c : String} (h1 : strLt a b) (h2 : strLt b c) : strLt a c :=
  IsTrans.trans (r := List.Lex (· < ·)) _ _ _ h1 h2

theorem strLt_irrefl (a : String) : ¬ strLt a a :=
  IsIrrefl.irrefl (r := List.Lex (· < ·)) _

theorem strLt_trichot (a b : String) : strLt a b ∨ a = b ∨ strLt b a := by
  rcases trichotomous_of (List.Lex ((· < ·) : Char → Char → Prop)) a.data b.data with h | h | h
  · exact Or.inl h
  · exact Or.inr (Or.inl (String.toList_inj.mp h))
  · exact Or.inr (Or.inr h)

theorem strLt_iff_lt {a b : String} : strLt a b ↔ a < b := by
  rw [String.lt_iff_toList_lt]
  exact Iff.rfl

/-- An encoded key of the scheduling namespace.  `attendKey s c` stands for
the encoding of `("attends", s, c)` produced by `attendSS.Pack`, and
`classKey n` for the encoding of `("class", n)` produced by
`courseSS.Pack` (main.go 30-31, 34). -/
inductive SchedKey where
  | attendKey (studentID className : String)
  | classKey (className : String)
deriving DecidableEq, Repr

/-- Byte order of the encoded keys.  The constant prefix `"attends"` sorts
before `"class"`, and within a subspace the order-preserving tuple codec
orders keys by the lexicographic order of their decoded fields. -/
def SchedKey.lt : SchedKey → SchedKey → Prop
  | attendKey s c, attendKey t d => strLt s t ∨ (s = t ∧ strLt c d)
  | attendKey _ _, classKey _ => True
  | classKey _, attendKey _ _ => False
  | classKey n, classKey m => strLt n m

instance SchedKey.decLt : ∀ a b : SchedKey, Decidable (SchedKey.lt a b)
  | attendKey _ _, attendKey _ _ => inferInstanceAs (Decidable (_ ∨ _))
  | attendKey _ _, classKey _ => isTrue trivial
  | classKey _, attendKey _ _ => isFalse fun h => h
  | classKey _, classKey _ => inferInstanceAs (Decidable (strLt _ _))

theorem SchedKey.lt_trans : ∀ {a b c : SchedKey}, SchedKey.lt a b → SchedKey.lt b c → SchedKey.lt a c := by
  intro a b c hab hbc
  cases a <;> cases b <;> cases c <;> simp only [SchedKey.lt] at *
  · rcases hab with h1 | ⟨e1, h1⟩ <;> rcases hbc with h2 | ⟨e2, h2⟩
    · exact Or.inl (strLt_trans h1 h2)
    · exact Or.inl (e2 ▸ h1)
    · exact Or.inl (e1 ▸ h2)
    · exact Or.inr ⟨e1.trans e2, strLt_trans h1 h2⟩
  · exact strLt_trans hab hbc

theorem SchedKey.lt_irrefl : ∀ a : SchedKey, ¬ SchedKey.lt a a := by
  intro a h
  cases a <;> simp only [SchedKey.lt] at h
  · rcases h with h | ⟨_, h⟩ <;> exact absurd h (strLt_irrefl _)
  · exact absurd h (strLt_irrefl _)

theorem SchedKey.lt_asymm {a b : SchedKey} (h1 : SchedKey.lt a b) (h2 : SchedKey.lt b a) : False :=
  SchedKey.lt_irrefl a (SchedKey.lt_trans h1 h2)

theorem SchedKey.lt_trichot : ∀ a b : SchedKey, SchedKey.lt a b ∨ a = b ∨ SchedKey.lt b a := by
  intro a b
  cases a <;> cases b <;> simp only [SchedKey.lt]
  case attendKey.attendKey s c t d =>
    rcases strLt_trichot s t with h | h | h
    · exact Or.inl (Or.inl h)
    · rcases strLt_trichot c d with h2 | h2 | h2
      · exact Or.inl (Or.inr ⟨h, h2⟩)
      · subst h; subst h2; simp
      · exact Or.inr (Or.inr (Or.inr ⟨h.symm, h2⟩))
    · exact Or.inr (Or.inr (Or.inl h))
  case attendKey.classKey => simp
  case classKey.attendKey => simp
  case classKey.classKey n m =>
    rcases strLt_trichot n m with h | h | h
    · exact Or.inl h
    · subst h; simp
    · exact Or.inr (Or.inr h)

/-- The state of the scheduling namespace: the store's key-value pairs, in
ascending key order (the ordered store returns and maintains its entries
sorted by key). -/
abbrev Store := List (SchedKey × String)

/-- Store contract `get(handle, key) -> value | absent`. -/
def Store.get : Store → SchedKey → Option String
  | [], _ => none
  | (k, v) :: rest, key => if k = key then some v else Store.get rest key

/-- Store contract `set(handle, key, value)`: insert or replace, preserving
ascending key order. -/
def Store.set : Store → SchedKey → String → Store
  | [], key, v => [(key, v)]
  | (k, w) :: rest, key, v =>
    if SchedKey.lt key k then (key, v) :: (k, w) :: rest
    else if key = k then (key, v) :: rest
    else (k, w) :: Store.set rest key v

/-- Store contract `clear(handle, key)`: delete the binding of one key. -/
def Store.clear : Store → SchedKey → Store
  | [], _ => []
  | (k, w) :: rest, key =>
    if k = key then Store.clear rest key else (k, w) :: Store.clear rest key

/-- Store contract `clearRange(handle, beginKey, endKey)`: delete every key
of the range, here given by its characteristic function. -/
def Store.clearRange (st : Store) (inRange : SchedKey → Bool) : Store :=
  st.filter (fun e => ! inRange e.1)

/-- Well-formedness of a store state: entries are in strictly ascending key
order, as the ordered store keeps them. -/
def Store.WF (st : Store) : Prop := st.Pairwise (fun a b => SchedKey.lt a.1 b.1)

instance Store.WF.dec (st : Store) : Decidable (Store.WF st) :=
  inferInstanceAs (Decidable (List.Pairwise _ st))

instance decEqExceptStore {ε : Type} [DecidableEq ε] : DecidableEq (Except ε Store) := fun a b =>
  match a, b with
  | Except.ok x, Except.ok y =>
    if h : x = y then isTrue (by rw [h]) else isFalse (fun hh => h (Except.ok.inj hh))
  | Except.error e, Except.error f =>
    if h : e = f then isTrue (by rw [h]) else isFalse (fun hh => h (Except.error.inj hh))
  | Except.ok _, Except.error _ => isFalse (fun hh => Except.noConfusion hh)
  | Except.error _, Except.ok _ => isFalse (fun hh => Except.noConfusion hh)

/-- Business errors of the scheduling service (spec section 7).  The Go
`signup` and `drop` bodies never construct either of them. -/
inductive SchedError where
  | capacityError
  | notFoundError
deriving DecidableEq, Repr

/-- `signup` (main.go 174-182): inside one transaction the body executes
`tr.Set(attendSS.Pack(tuple.Tuple{studentID, class}), []byte{})` and
returns a nil error.  There is no read of the class record, no read of an
existing attendance record, and no seat arithmetic. -/
def signup (st : Store) (studentID className : String) : Except SchedError Store :=
  Except.ok (Store.set st (SchedKey.attendKey studentID className) "")

/-- `drop` (main.go 187-195): inside one transaction the body executes
`tr.Clear(attendSS.Pack(tuple.Tuple{studentID, class}))` and returns a nil
error.  There is no read of the class record and no seat arithmetic. -/
def drop (st : Store) (studentID className : String) : Except SchedError Store :=
  Except.ok (Store.clear st (SchedKey.attendKey studentID className))

instance decExClassKey (k : SchedKey) : Decidable (∃ n, k = SchedKey.classKey n) :=
  match k with
  | SchedKey.attendKey _ _ => isFalse (fun ⟨_, h⟩ => SchedKey.noConfusion h)
  | SchedKey.classKey n => isTrue ⟨n, rfl⟩

/-- The class-region range read of `availableClasses` (main.go 152):
`tr.GetRange(courseSS, fdb.RangeOptions{})` returns exactly the entries of
the class subspace, in store key order. -/
def Store.classRange (st : Store) : Store :=
  st.filter (fun e => decide (∃ n, e.1 = SchedKey.classKey n))

/-- `courseSS.Unpack(kv.Key)` followed by `t[0].(string)` (main.go 155-159):
decoding a key of the class subspace back to the class name. -/
def SchedKey.unpackClass : SchedKey → Option String
  | classKey n => some n
  | attendKey _ _ => none

/-- `availableClasses` (main.go 149-167): a read-only transaction that
range-reads the class subspace and unpacks each key to a class name. -/
def availableClasses (st : Store) : List String :=
  (Store.classRange st).filterMap (fun e => SchedKey.unpackClass e.1)

/-- The initialization transaction (main.go 132-141), abstracted over the
class list and the seat count the program supplies (it passes the
generated `classes` list and `strconv.FormatInt(100, 10)`): it clears the
whole `scheduling` directory range and then sets one class record per
name to the decimal representation of the seat count. -/
def initDB (prior : Store) (classNames : List String) (seatsPerClass : Int) : Store :=
  classNames.foldl
    (fun st n => Store.set st (SchedKey.classKey n) (toString seatsPerClass))
    (Store.clearRange prior (fun _ => true))

/-- One scheduling mutation, for reasoning about arbitrary operation
sequences. -/
inductive SchedOp where
  | signupOp (studentID className : String)
  | dropOp (studentID className : String)

/-- The state reached by one scheduling mutation (the transaction bodies
never return an error, so the error branch is unreachable). -/
def applyOp (st : Store) : SchedOp → Store
  | SchedOp.signupOp s c =>
    match signup st s c with
    | Except.ok st2 => st2
    | Except.error _ => st
  | SchedOp.dropOp s c =>
    match drop st s c with
    | Except.ok st2 => st2
    | Except.error _ => st

/-- The state reached by a sequence of signup/drop operations. -/
def runOps (st : Store) (ops : List SchedOp) : Store := ops.foldl applyOp st

/-- Errors reported by the store client, by numeric code (`fdb.Error`
carries a `Code` field); `none` models a nil Go error. -/
abbrev FdbError := Nat

/-- One pass of the body of the manual retry loop (main.go 82-97) after
`wrapped()` has produced the error value `err`:

    if err != nil { return }
    fe, ok := err.(fdb.Error)
    if ok { err = tr.OnError(fe).Get() }
    if err != nil { return }

`some r` means the enclosing function returns `r`; `none` means the loop
continues with another iteration.  A type assertion on a nil interface
yields `ok = false`, so `OnError` could only be consulted with a non-nil
`err`, which never gets past the first return. -/
def afterWrapped (onError : FdbError → Option FdbError) (err : Option FdbError) :
    Option (Option FdbError) :=
  if err ≠ none then some err
  else
    let err2 := match err with
      | some fe => onError fe
      | none => err
    if err2 ≠ none then some err2 else none

/-- The manual (non-`Transact`) signup variant's retry loop (main.go
82-97).  `attempts i` is the error produced by the `i`-th execution of
`wrapped()` (the commit error, or a recovered `fdb.Error`); `onError`
models `tr.OnError(fe).Get()`; `fuel` bounds the number of iterations we
unfold, with `none` meaning the loop was still running when the fuel ran
out. -/
def manualSignup (attempts : Nat → Option FdbError) (onError : FdbError → Option FdbError) :
    Nat → Nat → Option (Option FdbError)
  | _, 0 => none
  | i, fuel + 1 =>
    match afterWrapped onError (attempts i) with
    | some r => some r
    | none => manualSignup attempts onError (i + 1) fuel

theorem Store.get_set (st : Store) (k : SchedKey) (v : String) (k2 : SchedKey) :
    Store.get (Store.set st k v) k2 = if k2 = k then some v else Store.get st k2 := by
  induction st with
  | nil =>
    by_cases h : k2 = k
    · subst h; simp [Store.set, Store.get]
    · simp [Store.set, Store.get, h, Ne.symm h]
  | cons e rest ih =>
    obtain ⟨k0, w⟩ := e
    simp only [Store.set]
    by_cases hlt : SchedKey.lt k k0
    · rw [if_pos hlt]
      by_cases h : k2 = k
      · subst h; simp [Store.get]
      · simp [Store.get, Ne.symm h, h]
    · rw [if_neg hlt]
      by_cases heq : k = k0
      · rw [if_pos heq]
        by_cases h : k2 = k
        · subst h; simp [Store.get, heq]
        · have hk0 : ¬ (k0 = k2) := fun hh => h (hh.symm.trans heq.symm)
          have hkk2 : ¬ (k = k2) := fun hh => h hh.symm
          simp [Store.get, h, hk0, hkk2]
      · rw [if_neg heq]
        by_cases h2 : k0 = k2
        · have hne : ¬ (k2 = k) := fun hh => heq (h2.trans hh).symm
          simp [Store.get, h2, hne]
        · simp [Store.get, h2, ih]

theorem Store.get_clear (st : Store) (k k2 : SchedKey) :
    Store.get (Store.clear st k) k2 = if k2 = k then none else Store.get st k2 := by
  induction st with
  | nil => by_cases h : k2 = k <;> simp [Store.clear, Store.get, h]
  | cons e rest ih =>
    obtain ⟨k0, w⟩ := e
    simp only [Store.clear]
    by_cases h0 : k0 = k
    · rw [if_pos h0, ih]
      by_cases h : k2 = k
      · simp [h]
      · have hk : ¬ (k0 = k2) := fun hh => h (hh.symm.trans h0)
        simp [Store.get, h, hk]
    · rw [if_neg h0]
      by_cases h : k2 = k
      · subst h
        have hk : ¬ (k0 = k2) := h0
        simp [Store.get, hk, ih]
      · by_cases hk02 : k0 = k2
        · simp [Store.get, hk02, h]
        · simp [Store.get, hk02, h, ih]

theorem Store.get_none_not_mem : ∀ (st : Store) (k : SchedKey),
    Store.get st k = none → ∀ p ∈ st, p.1 ≠ k
  | [], _, _, p, hp => absurd hp (List.not_mem_nil p)
  | (k0, _) :: rest, k, h, p, hp => by
    simp only [Store.get] at h
    by_cases h0 : k0 = k
    · rw [if_pos h0] at h; cases h
    · rw [if_neg h0] at h
      rcases List.mem_cons.mp hp with rfl | hp2
      · exact h0
      · exact Store.get_none_not_mem rest k h p hp2

theorem Store.clear_of_none : ∀ (st : Store) (k : SchedKey),
    Store.get st k = none → Store.clear st k = st
  | [], _, _ => rfl
  | (k0, w) :: rest, k, h => by
    simp only [Store.get] at h
    by_cases h0 : k0 = k
    · rw [if_pos h0] at h; cases h
    · rw [if_neg h0] at h
      simp only [Store.clear, if_neg h0]
      rw [Store.clear_of_none rest k h]

theorem Store.clear_set : ∀ (st : Store) (k : SchedKey) (v : String),
    Store.get st k = none → Store.clear (Store.set st k v) k = st
  | [], k, v, _ => by simp [Store.set, Store.clear]
  | (k0, w) :: rest, k, v, h => by
    simp only [Store.get] at h
    by_cases h0 : k0 = k
    · rw [if_pos h0] at h; cases h
    · rw [if_neg h0] at h
      simp only [Store.set]
      by_cases hlt : SchedKey.lt k k0
      · rw [if_pos hlt]
        simp [Store.clear, h0, Store.clear_of_none rest k h]
      · rw [if_neg hlt, if_neg (fun hh => h0 hh.symm)]
        simp only [Store.clear, if_neg h0]
        rw [Store.clear_set rest k v h]

theorem Store.get_some_mem : ∀ (st : Store) (k : SchedKey) (v : String),
    Store.get st k = some v → (k, v) ∈ st
  | [], _, _, h => by cases h
  | (k0, w) :: rest, k, v, h => by
    simp only [Store.get] at h
    by_cases h0 : k0 = k
    · rw [if_pos h0] at h
      subst h0
      injection h with hv
      subst hv
      exact List.mem_cons_self _ _
    · rw [if_neg h0] at h
      exact List.mem_cons_of_mem _ (Store.get_some_mem rest k v h)

theorem Store.set_self : ∀ (st : Store) (k : SchedKey) (v : String),
    Store.WF st → Store.get st k = some v → Store.set st k v = st
  | [], _, _, _, h => by cases h
  | (k0, w) :: rest, k, v, hwf, h => by
    have hwf2 : List.Pairwise (fun a b => SchedKey.lt a.1 b.1) ((k0, w) :: rest) := hwf
    obtain ⟨h0all, hrest⟩ := List.pairwise_cons.mp hwf2
    simp only [Store.get] at h
    by_cases h0 : k0 = k
    · subst h0
      rw [if_pos rfl] at h
      injection h with hv
      subst hv
      simp [Store.set, SchedKey.lt_irrefl k0]
    · rw [if_neg h0] at h
      have hmem := Store.get_some_mem rest k v h
      have hlt0 : SchedKey.lt k0 k := h0all (k, v) hmem
      simp only [Store.set]
      rw [if_neg (fun hh => SchedKey.lt_asymm hh hlt0), if_neg (fun hh => h0 hh.symm)]
      rw [Store.set_self rest k v hrest h]

theorem Store.mem_set : ∀ (st : Store) (k : SchedKey) (v : String) (x : SchedKey × String),
    x ∈ Store.set st k v → x = (k, v) ∨ x ∈ st
  | [], k, v, x, hx => by
    simp [Store.set] at hx
    exact Or.inl hx
  | (k0, w) :: rest, k, v, x, hx => by
    simp only [Store.set] at hx
    by_cases hlt : SchedKey.lt k k0
    · rw [if_pos hlt] at hx
      rcases List.mem_cons.mp hx with rfl | hx2
      · exact Or.inl rfl
      · exact Or.inr hx2
    · rw [if_neg hlt] at hx
      by_cases heq : k = k0
      · rw [if_pos heq] at hx
        rcases List.mem_cons.mp hx with rfl | hx2
        · exact Or.inl rfl
        · exact Or.inr (List.mem_cons_of_mem _ hx2)
      · rw [if_neg heq] at hx
        rcases List.mem_cons.mp hx with rfl | hx2
        · exact Or.inr (List.mem_cons_self _ _)
        · rcases Store.mem_set rest k v x hx2 with hh | hh
          · exact Or.inl hh
          · exact Or.inr (List.mem_cons_of_mem _ hh)

theorem Store.WF_set : ∀ (st : Store) (k : SchedKey) (v : String),
    Store.WF st → Store.WF (Store.set st k v)
  | [], k, v, _ => by
    show List.Pairwise _ _
    simp [Store.set]
  | (k0, w) :: rest, k, v, hwf => by
    have hwf2 : List.Pairwise (fun a b => SchedKey.lt a.1 b.1) ((k0, w) :: rest) := hwf
    obtain ⟨h0all, hrest⟩ := List.pairwise_cons.mp hwf2
    show List.Pairwise (fun a b => SchedKey.lt a.1 b.1) (Store.set ((k0, w) :: rest) k v)
    simp only [Store.set]
    by_cases hlt : SchedKey.lt k k0
    · rw [if_pos hlt]
      refine List.pairwise_cons.mpr ⟨?_, hwf2⟩
      intro x hx
      rcases List.mem_cons.mp hx with rfl | hx2
      · exact hlt
      · exact SchedKey.lt_trans hlt (h0all x hx2)
    · rw [if_neg hlt]
      by_cases heq : k = k0
      · rw [if_pos heq]
        refine List.pairwise_cons.mpr ⟨?_, hrest⟩
        intro x hx
        rw [heq]
        exact h0all x hx
      · rw [if_neg heq]
        refine List.pairwise_cons.mpr ⟨?_, Store.WF_set rest k v hrest⟩
        intro x hx
        rcases Store.mem_set rest k v x hx with rfl | hx2
        · rcases SchedKey.lt_trichot k k0 with hh | hh | hh
          · exact absurd hh hlt
          · exact absurd hh heq
          · exact hh
        · exact h0all x hx2

theorem Store.countP_none : ∀ (st : Store) (k : SchedKey),
    Store.get st k = none → st.countP (fun e => decide (e.1 = k)) = 0
  | [], _, _ => rfl
  | (k0, w) :: rest, k, h => by
    simp only [Store.get] at h
    by_cases h0 : k0 = k
    · rw [if_pos h0] at h; cases h
    · rw [if_neg h0] at h
      simp [List.countP_cons, h0, Store.countP_none rest k h]

theorem Store.countP_set : ∀ (st : Store) (k : SchedKey) (v : String),
    Store.get st k = none → (Store.set st k v).countP (fun e => decide (e.1 = k)) = 1
  | [], k, v, _ => by simp [Store.set, List.countP_cons]
  | (k0, w) :: rest, k, v, h => by
    simp only [Store.get] at h
    by_cases h0 : k0 = k
    · rw [if_pos h0] at h; cases h
    · rw [if_neg h0] at h
      simp only [Store.set]
      by_cases hlt : SchedKey.lt k k0
      · rw [if_pos hlt]
        simp [List.countP_cons, h0, Store.countP_none rest k h]
      · rw [if_neg hlt, if_neg (fun hh => h0 hh.symm)]
        simp [List.countP_cons, h0, Store.countP_set rest k v h]

theorem decide_classKey_attend (s c : String) :
    decide (∃ n, SchedKey.attendKey s c = SchedKey.classKey n) = false := by
  apply decide_eq_false
  rintro ⟨n, h⟩
  cases h

theorem decide_classKey_class (m : String) :
    decide (∃ n, SchedKey.classKey m = SchedKey.classKey n) = true :=
  decide_eq_true ⟨m, rfl⟩

theorem availableClasses_cons_attend (s c : String) (ev : String) (rest : Store) :
    availableClasses ((SchedKey.attendKey s c, ev) :: rest) = availableClasses rest := by
  simp [availableClasses, Store.classRange, List.filter_cons, decide_classKey_attend]

theorem availableClasses_cons_class (m : String) (ev : String) (rest : Store) :
    availableClasses ((SchedKey.classKey m, ev) :: rest) = m :: availableClasses rest := by
  simp [availableClasses, Store.classRange, List.filter_cons, decide_classKey_class,
    List.filterMap_cons, SchedKey.unpackClass]

theorem mem_availableClasses (st : Store) (n : String) :
    n ∈ availableClasses st ↔ ∃ v, (SchedKey.classKey n, v) ∈ st := by
  constructor
  · intro h
    simp only [availableClasses, Store.classRange, List.mem_filterMap, List.mem_filter] at h
    obtain ⟨e, ⟨he, _⟩, hu⟩ := h
    obtain ⟨ek, ev⟩ := e
    cases ek with
    | attendKey s c => simp [SchedKey.unpackClass] at hu
    | classKey m =>
      simp only [SchedKey.unpackClass] at hu
      injection hu with hm
      subst hm
      exact ⟨ev, he⟩
  · rintro ⟨v, hv⟩
    simp only [availableClasses, Store.classRange, List.mem_filterMap, List.mem_filter]
    exact ⟨(SchedKey.classKey n, v), ⟨hv, decide_classKey_class n⟩, rfl⟩

theorem availableClasses_pairwise : ∀ st : Store, Store.WF st →
    List.Pairwise strLt (availableClasses st)
  | [], _ => by simp [availableClasses, Store.classRange]
  | (ek, ev) :: rest, hwf => by
    have hwf2 : List.Pairwise (fun a b => SchedKey.lt a.1 b.1) ((ek, ev) :: rest) := hwf
    obtain ⟨h0all, hrest⟩ := List.pairwise_cons.mp hwf2
    cases ek with
    | attendKey s c =>
      rw [availableClasses_cons_attend]
      exact availableClasses_pairwise rest hrest
    | classKey m =>
      rw [availableClasses_cons_class]
      refine List.pairwise_cons.mpr ⟨?_, availableClasses_pairwise rest hrest⟩
      intro x hx
      obtain ⟨v, hv⟩ := (mem_availableClasses rest x).mp hx
      exact h0all (SchedKey.classKey x, v) hv

theorem clearRange_all (st : Store) : Store.clearRange st (fun _ => true) = [] := by
  induction st with
  | nil => rfl
  | cons e rest _ => simp [Store.clearRange, List.filter_cons]

theorem get_foldl_set_attend : ∀ (cs : List String) (st : Store) (seats : Int) (s c : String),
    Store.get (cs.foldl (fun st2 n => Store.set st2 (SchedKey.classKey n) (toString seats)) st)
        (SchedKey.attendKey s c)
      = Store.get st (SchedKey.attendKey s c)
  | [], _, _, _, _ => rfl
  | n0 :: rest, st, seats, s, c => by
    rw [List.foldl_cons, get_foldl_set_attend rest _ seats s c, Store.get_set]
    rw [if_neg (fun hh => SchedKey.noConfusion hh)]

theorem get_foldl_set_notmem : ∀ (cs : List String) (st : Store) (seats : Int) (n : String),
    n ∉ cs →
    Store.get (cs.foldl (fun st2 m => Store.set st2 (SchedKey.classKey m) (toString seats)) st)
        (SchedKey.classKey n)
      = Store.get st (SchedKey.classKey n)
  | [], _, _, _, _ => rfl
  | m0 :: rest, st, seats, n, hnm => by
    have h1 : n ≠ m0 := fun hh => hnm (hh ▸ List.mem_cons_self m0 rest)
    have h2 : n ∉ rest := fun hh => hnm (List.mem_cons_of_mem m0 hh)
    rw [List.foldl_cons, get_foldl_set_notmem rest _ seats n h2, Store.get_set]
    rw [if_neg (fun hh => h1 (SchedKey.classKey.inj hh))]

theorem get_foldl_set_mem : ∀ (cs : List String) (st : Store) (seats : Int) (n : String),
    n ∈ cs →
    Store.get (cs.foldl (fun st2 m => Store.set st2 (SchedKey.classKey m) (toString seats)) st)
        (SchedKey.classKey n)
      = some (toString seats)
  | [], _, _, n, h => absurd h (List.not_mem_nil n)
  | m0 :: rest, st, seats, n, h => by
    by_cases hr : n ∈ rest
    · rw [List.foldl_cons]
      exact get_foldl_set_mem rest _ seats n hr
    · have h0 : n = m0 := by
        rcases List.mem_cons.mp h with hh | hh
        · exact hh
        · exact absurd hh hr
      subst h0
      rw [List.foldl_cons, get_foldl_set_notmem rest _ seats n hr, Store.get_set, if_pos rfl]

theorem applyOp_signup (st : Store) (s c : String) :
    applyOp st (SchedOp.signupOp s c) = Store.set st (SchedKey.attendKey s c) "" := rfl

theorem applyOp_drop (st : Store) (s c : String) :
    applyOp st (SchedOp.dropOp s c) = Store.clear st (SchedKey.attendKey s c) := rfl

theorem get_runOps_class (ops : List SchedOp) (st : Store) (n : String) :
    Store.get (runOps st ops) (SchedKey.classKey n) = Store.get st (SchedKey.classKey n) := by
  induction ops generalizing st with
  | nil => rfl
  | cons op rest ih =>
    have hstep : runOps st (op :: rest) = runOps (applyOp st op) rest := rfl
    rw [hstep, ih]
    cases op with
    | signupOp s c =>
      rw [applyOp_signup, Store.get_set, if_neg (fun hh => SchedKey.noConfusion hh)]
    | dropOp s c =>
      rw [applyOp_drop, Store.get_clear, if_neg (fun hh => SchedKey.noConfusion hh)]

theorem afterWrapped_some (onError : FdbError → Option FdbError) (e : FdbError) :
    afterWrapped onError (some e) = some (some e) := rfl

theorem afterWrapped_none (onError : FdbError → Option FdbError) :
    afterWrapped onError none = none := rfl

/-- C1 counterexample: in the state where class "c" holds the seat value
"0" (seatsAvailable = 0) and student "s" holds no AttendanceRecord, the
claim says signup("s", "c") must fail with CapacityError and leave the
state unchanged; the code instead succeeds and writes the
AttendanceRecord, because its signup body only executes a blind
tr.Set of the attendance key. -/
theorem signup_capacity_cex :
    Store.get [(SchedKey.classKey "c", toString (0 : Int))] (SchedKey.classKey "c")
      = some (toString (0 : Int)) ∧
    (0 : Int) ≤ 0 ∧
    Store.get [(SchedKey.classKey "c", toString (0 : Int))] (SchedKey.attendKey "s" "c")
      = none ∧
    signup [(SchedKey.classKey "c", toString (0 : Int))] "s" "c"
      ≠ Except.error SchedError.capacityError ∧
    signup [(SchedKey.classKey "c", toString (0 : Int))] "s" "c"
      = Except.ok
          [(SchedKey.attendKey "s" "c", ""), (SchedKey.classKey "c", toString (0 : Int))] := by
  decide

/-- C1 (amended): for every signup(studentID, className) where the class
exists and no AttendanceRecord for the pair exists, the call always
succeeds — even when seatsAvailable is 0 it does not fail with
CapacityError — writes the AttendanceRecord, and leaves the seat value of
every class unchanged; moreover no sequence of signup/drop operations
ever changes any class's seat value, so a seat value never becomes
negative (it stays exactly as initialized). -/
theorem signup_amended (st : Store) (s c v : String)
    (_hclass : Store.get st (SchedKey.classKey c) = some v)
    (_hrec : Store.get st (SchedKey.attendKey s c) = none) :
    signup st s c = Except.ok (Store.set st (SchedKey.attendKey s c) "") ∧
    Store.get (Store.set st (SchedKey.attendKey s c) "") (SchedKey.attendKey s c) = some "" ∧
    (∀ n, Store.get (Store.set st (SchedKey.attendKey s c) "") (SchedKey.classKey n)
      = Store.get st (SchedKey.classKey n)) ∧
    (∀ (st2 : Store) (ops : List SchedOp) (n : String),
      Store.get (runOps st2 ops) (SchedKey.classKey n) = Store.get st2 (SchedKey.classKey n)) := by
  refine ⟨rfl, ?_, ?_, ?_⟩
  · rw [Store.get_set, if_pos rfl]
  · intro n
    rw [Store.get_set, if_neg (fun hh => SchedKey.noConfusion hh)]
  · intro st2 ops n
    exact get_runOps_class ops st2 n

/-- C1 witness: the amended theorem in the concrete state where class
"math" has seat value "2" and student "s" is not enrolled. -/
theorem signup_amended_witness :
    Store.get [(SchedKey.classKey "math", "2")] (SchedKey.classKey "math") = some "2" ∧
    Store.get [(SchedKey.classKey "math", "2")] (SchedKey.attendKey "s" "math") = none ∧
    signup [(SchedKey.classKey "math", "2")] "s" "math"
      = Except.ok
          (Store.set [(SchedKey.classKey "math", "2")] (SchedKey.attendKey "s" "math") "") ∧
    Store.get (Store.set [(SchedKey.classKey "math", "2")] (SchedKey.attendKey "s" "math") "")
        (SchedKey.attendKey "s" "math") = some "" ∧
    Store.get (Store.set [(SchedKey.classKey "math", "2")] (SchedKey.attendKey "s" "math") "")
        (SchedKey.classKey "math")
      = Store.get [(SchedKey.classKey "math", "2")] (SchedKey.classKey "math") ∧
    Store.get (runOps [(SchedKey.classKey "math", "2")] [SchedOp.signupOp "s" "math"])
        (SchedKey.classKey "math")
      = Store.get [(SchedKey.classKey "math", "2")] (SchedKey.classKey "math") := by
  have hthm := signup_amended [(SchedKey.classKey "math", "2")] "s" "math" "2"
    (by decide) (by decide)
  exact ⟨by decide, by decide, hthm.1, hthm.2.1, hthm.2.2.1 "math", hthm.2.2.2 _ _ _⟩

/-- C2 counterexample: from the state where class "c" has seat value "3"
and student "s" is not enrolled, two consecutive signup("s", "c") calls
leave exactly one AttendanceRecord but leave the seat value at "3" — the
claim says the seat count is decremented exactly once, which would give
"2", and the code never decrements at all. -/
theorem signup_idempotent_cex :
    Store.get [(SchedKey.classKey "c", toString (3 : Int))] (SchedKey.attendKey "s" "c")
      = none ∧
    signup [(SchedKey.classKey "c", toString (3 : Int))] "s" "c"
      = Except.ok
          [(SchedKey.attendKey "s" "c", ""), (SchedKey.classKey "c", toString (3 : Int))] ∧
    signup [(SchedKey.attendKey "s" "c", ""), (SchedKey.classKey "c", toString (3 : Int))] "s" "c"
      = Except.ok
          [(SchedKey.attendKey "s" "c", ""), (SchedKey.classKey "c", toString (3 : Int))] ∧
    Store.get [(SchedKey.attendKey "s" "c", ""), (SchedKey.classKey "c", toString (3 : Int))]
        (SchedKey.classKey "c") = some (toString (3 : Int)) ∧
    some (toString (3 : Int)) ≠ some (toString ((3 : Int) - 1)) := by
  decide

/-- C2 (amended): signup is idempotent per (student, class) pair — if the
AttendanceRecord (with its empty marker value) already exists, signup
succeeds and changes no store state, and calling signup twice in sequence
from a state with no record yields exactly one AttendanceRecord — but the
class's seat value is left unchanged (decremented zero times), not
decremented exactly once. -/
theorem signup_idempotent_amended (st : Store) (s c : String) (hwf : Store.WF st) :
    (Store.get st (SchedKey.attendKey s c) = some "" → signup st s c = Except.ok st) ∧
    (Store.get st (SchedKey.attendKey s c) = none →
      signup st s c = Except.ok (Store.set st (SchedKey.attendKey s c) "") ∧
      signup (Store.set st (SchedKey.attendKey s c) "") s c
        = Except.ok (Store.set st (SchedKey.attendKey s c) "") ∧
      (Store.set st (SchedKey.attendKey s c) "").countP
        (fun e => decide (e.1 = SchedKey.attendKey s c)) = 1 ∧
      ∀ n, Store.get (Store.set st (SchedKey.attendKey s c) "") (SchedKey.classKey n)
        = Store.get st (SchedKey.classKey n)) := by
  constructor
  · intro hsome
    show Except.ok (Store.set st (SchedKey.attendKey s c) "") = Except.ok st
    rw [Store.set_self st _ "" hwf hsome]
  · intro hnone
    refine ⟨rfl, ?_, ?_, ?_⟩
    · show Except.ok
          (Store.set (Store.set st (SchedKey.attendKey s c) "") (SchedKey.attendKey s c) "")
        = Except.ok (Store.set st (SchedKey.attendKey s c) "")
      rw [Store.set_self _ _ "" (Store.WF_set st _ "" hwf) (by rw [Store.get_set, if_pos rfl])]
    · exact Store.countP_set st _ "" hnone
    · intro n
      rw [Store.get_set, if_neg (fun hh => SchedKey.noConfusion hh)]

/-- C2 witness: the amended theorem in the concrete state where student
"s" is already enrolled in "math": the second signup is a no-op. -/
theorem signup_idempotent_witness :
    Store.WF [(SchedKey.attendKey "s" "math", ""), (SchedKey.classKey "math", "7")] ∧
    Store.get [(SchedKey.attendKey "s" "math", ""), (SchedKey.classKey "math", "7")]
        (SchedKey.attendKey "s" "math") = some "" ∧
    signup [(SchedKey.attendKey "s" "math", ""), (SchedKey.classKey "math", "7")] "s" "math"
      = Except.ok [(SchedKey.attendKey "s" "math", ""), (SchedKey.classKey "math", "7")] := by
  refine ⟨by decide, by decide, ?_⟩
  exact (signup_idempotent_amended
    [(SchedKey.attendKey "s" "math", ""), (SchedKey.classKey "math", "7")] "s" "math"
    (by decide)).1 (by decide)

/-- C3 counterexample: in the empty store no ClassRecord for "c" exists,
yet signup("s", "c") does not fail with NotFoundError — it succeeds and
writes the AttendanceRecord, changing the store state. -/
theorem signup_missing_class_cex :
    Store.get ([] : Store) (SchedKey.classKey "c") = none ∧
    signup ([] : Store) "s" "c" ≠ Except.error SchedError.notFoundError ∧
    signup ([] : Store) "s" "c" = Except.ok [(SchedKey.attendKey "s" "c", "")] ∧
    ([(SchedKey.attendKey "s" "c", "")] : Store) ≠ ([] : Store) := by
  decide

/-- C3 (amended): for every signup(studentID, className) where no
ClassRecord for className exists, the call still succeeds — it never
fails with NotFoundError or any other error, because it performs no read
at all — writes the AttendanceRecord, and changes no other key. -/
theorem signup_missing_class_amended (st : Store) (s c : String)
    (_hnone : Store.get st (SchedKey.classKey c) = none) :
    signup st s c = Except.ok (Store.set st (SchedKey.attendKey s c) "") ∧
    (∀ e, signup st s c ≠ Except.error e) ∧
    Store.get (Store.set st (SchedKey.attendKey s c) "") (SchedKey.attendKey s c) = some "" ∧
    ∀ k, k ≠ SchedKey.attendKey s c →
      Store.get (Store.set st (SchedKey.attendKey s c) "") k = Store.get st k := by
  refine ⟨rfl, ?_, ?_, ?_⟩
  · intro e h
    simp [signup] at h
  · rw [Store.get_set, if_pos rfl]
  · intro k hk
    rw [Store.get_set, if_neg hk]

/-- C3 witness: the amended theorem on the empty store, where class "art"
does not exist. -/
theorem signup_missing_class_witness :
    Store.get ([] : Store) (SchedKey.classKey "art") = none ∧
    signup ([] : Store) "s" "art"
      = Except.ok (Store.set ([] : Store) (SchedKey.attendKey "s" "art") "") ∧
    signup ([] : Store) "s" "art" ≠ Except.error SchedError.notFoundError := by
  have hthm := signup_missing_class_amended ([] : Store) "s" "art" (by decide)
  exact ⟨by decide, hthm.1, hthm.2.1 SchedError.notFoundError⟩

/-- C4 counterexample: with student "s" enrolled in class "c" of seat
value "3", drop("s", "c") deletes the record but leaves the seat value at
"3" instead of incrementing it to "4"; and with the record present but
the ClassRecord absent, drop succeeds instead of failing with
NotFoundError. -/
theorem drop_cex :
    Store.get [(SchedKey.attendKey "s" "c", ""), (SchedKey.classKey "c", toString (3 : Int))]
        (SchedKey.attendKey "s" "c") = some "" ∧
    drop [(SchedKey.attendKey "s" "c", ""), (SchedKey.classKey "c", toString (3 : Int))] "s" "c"
      = Except.ok [(SchedKey.classKey "c", toString (3 : Int))] ∧
    Store.get [(SchedKey.classKey "c", toString (3 : Int))] (SchedKey.classKey "c")
      = some (toString (3 : Int)) ∧
    some (toString (3 : Int)) ≠ some (toString ((3 : Int) + 1)) ∧
    Store.get ([(SchedKey.attendKey "s" "c", "")] : Store) (SchedKey.classKey "c") = none ∧
    drop [(SchedKey.attendKey "s" "c", "")] "s" "c"
      ≠ Except.error SchedError.notFoundError := by
  decide

/-- C4 (amended): for every drop(studentID, className): if no
AttendanceRecord for the pair exists, the call succeeds and changes no
store state; if the record exists, the call deletes it but leaves the
class's seat value — and every other key — unchanged, and it succeeds
even when the ClassRecord does not exist (it never fails with
NotFoundError or any other error). -/
theorem drop_amended (st : Store) (s c : String) :
    (Store.get st (SchedKey.attendKey s c) = none → drop st s c = Except.ok st) ∧
    (∀ e, drop st s c ≠ Except.error e) ∧
    drop st s c = Except.ok (Store.clear st (SchedKey.attendKey s c)) ∧
    Store.get (Store.clear st (SchedKey.attendKey s c)) (SchedKey.attendKey s c) = none ∧
    ∀ k, k ≠ SchedKey.attendKey s c →
      Store.get (Store.clear st (SchedKey.attendKey s c)) k = Store.get st k := by
  refine ⟨?_, ?_, rfl, ?_, ?_⟩
  · intro hnone
    show Except.ok (Store.clear st (SchedKey.attendKey s c)) = Except.ok st
    rw [Store.clear_of_none st _ hnone]
  · intro e h
    simp [drop] at h
  · rw [Store.get_clear, if_pos rfl]
  · intro k hk
    rw [Store.get_clear, if_neg hk]

/-- C4 witness: the amended theorem in the concrete state where nobody is
enrolled in class "math": drop is a no-op and reports no error. -/
theorem drop_amended_witness :
    Store.get ([(SchedKey.classKey "math", "4")] : Store) (SchedKey.attendKey "s" "math")
      = none ∧
    drop [(SchedKey.classKey "math", "4")] "s" "math"
      = Except.ok [(SchedKey.classKey "math", "4")] ∧
    drop [(SchedKey.classKey "math", "4")] "s" "math"
      ≠ Except.error SchedError.notFoundError := by
  have hthm := drop_amended [(SchedKey.classKey "math", "4")] "s" "math"
  exact ⟨by decide, hthm.1 (by decide), hthm.2.1 SchedError.notFoundError⟩

/-- C5: initialize(classNames, seatsPerClass) clears the entire namespace
range — class and attendance regions alike — and then writes one
ClassRecord per supplied name with the decimal rendering of the supplied
seat count: afterwards a listed class reads back exactly that seat count,
an unlisted class reads back absent, no attendance record remains, and in
particular after initialize(["a","b","c"], 5) the class listing is
exactly ["a","b","c"] with every seat value "5". -/
theorem initDB_resets (prior : Store) (classNames : List String) (seats : Int) :
    (∀ n, n ∈ classNames →
      Store.get (initDB prior classNames seats) (SchedKey.classKey n)
        = some (toString seats)) ∧
    (∀ n, n ∉ classNames →
      Store.get (initDB prior classNames seats) (SchedKey.classKey n) = none) ∧
    (∀ s c, Store.get (initDB prior classNames seats) (SchedKey.attendKey s c) = none) ∧
    availableClasses (initDB ([] : Store) ["a", "b", "c"] 5) = ["a", "b", "c"] ∧
    Store.get (initDB ([] : Store) ["a", "b", "c"] 5) (SchedKey.classKey "a")
      = some (toString (5 : Int)) := by
  refine ⟨?_, ?_, ?_, by decide, by decide⟩
  · intro n hn
    unfold initDB
    exact get_foldl_set_mem classNames _ seats n hn
  · intro n hn
    unfold initDB
    rw [get_foldl_set_notmem classNames _ seats n hn, clearRange_all]
    rfl
  · intro s c
    unfold initDB
    rw [get_foldl_set_attend, clearRange_all]
    rfl

/-- C5 witness: the theorem applied to initialize(["a","b","c"], 5): the
listed class "b" reads back "5", the unlisted class "z" is absent, and
the attendance record ("s", "a") is absent. -/
theorem initDB_resets_witness :
    ("b" ∈ ["a", "b", "c"]) ∧
    Store.get (initDB ([] : Store) ["a", "b", "c"] 5) (SchedKey.classKey "b")
      = some (toString (5 : Int)) ∧
    ("z" ∉ ["a", "b", "c"]) ∧
    Store.get (initDB ([] : Store) ["a", "b", "c"] 5) (SchedKey.classKey "z") = none ∧
    Store.get (initDB ([] : Store) ["a", "b", "c"] 5) (SchedKey.attendKey "s" "a") = none := by
  have hthm := initDB_resets ([] : Store) ["a", "b", "c"] 5
  exact ⟨by decide, hthm.1 "b" (by decide), by decide, hthm.2.1 "z" (by decide),
    hthm.2.2.1 "s" "a"⟩

/-- C6: availableClasses is a pure function of the store state (it only
reads), its range scan covers exactly the class region, and on any
well-formed (key-sorted) state it returns the decoded class names in
ascending lexicographic order, without duplicates, and containing a name
if and only if the class region holds a record for it — never an entry
from the attendance region. -/
theorem availableClasses_props (st : Store) (hwf : Store.WF st) :
    List.Sorted (· < ·) (availableClasses st) ∧
    (availableClasses st).Nodup ∧
    ∀ n, n ∈ availableClasses st ↔ ∃ v, (SchedKey.classKey n, v) ∈ st := by
  have hpw := availableClasses_pairwise st hwf
  refine ⟨?_, ?_, fun n => mem_availableClasses st n⟩
  · exact List.Pairwise.imp (fun h => strLt_iff_lt.mp h) hpw
  · have hne : ∀ {a b : String}, strLt a b → a ≠ b := by
      intro a b h heq
      exact strLt_irrefl b (heq ▸ h)
    exact List.Pairwise.imp hne hpw

/-- C6 witness: the theorem in a concrete sorted state holding one
attendance record and the two classes "bio" and "chem". -/
theorem availableClasses_props_witness :
    Store.WF [(SchedKey.attendKey "s" "bio", ""), (SchedKey.classKey "bio", "5"),
      (SchedKey.classKey "chem", "5")] ∧
    List.Sorted (· < ·) (availableClasses [(SchedKey.attendKey "s" "bio", ""),
      (SchedKey.classKey "bio", "5"), (SchedKey.classKey "chem", "5")]) ∧
    (availableClasses [(SchedKey.attendKey "s" "bio", ""), (SchedKey.classKey "bio", "5"),
      (SchedKey.classKey "chem", "5")]).Nodup := by
  have hthm := availableClasses_props [(SchedKey.attendKey "s" "bio", ""),
    (SchedKey.classKey "bio", "5"), (SchedKey.classKey "chem", "5")] (by decide)
  exact ⟨by decide, hthm.1, hthm.2.1⟩

/-- C7: the manual retry loop evaluated at the failing input.  The first
execution of wrapped() ends with the retryable error 1020 (not_committed)
and OnError would allow a retry (it returns nil), yet the loop returns
that error immediately without retrying; and when every commit succeeds
(all attempts nil) the loop never returns at all within any fuel bound
shown here, instead of returning the successful result. -/
theorem manualSignup_code_behavior :
    manualSignup (fun _ => some 1020) (fun _ => none) 0 5 = some (some 1020) ∧
    manualSignup (fun _ => none) (fun _ => some 1020) 0 5 = none := by
  exact ⟨rfl, rfl⟩

/-- C8: over any sequence of signup and drop operations the class region
is untouched: a class key reads back non-absent after the sequence
exactly when its name was in the most recent initialize call's list, and
the value read is identical to the one right after that initialize. -/
theorem class_keys_invariant (prior : Store) (classNames : List String) (seats : Int)
    (ops : List SchedOp) (n : String) :
    (Store.get (runOps (initDB prior classNames seats) ops) (SchedKey.classKey n) ≠ none
      ↔ n ∈ classNames) ∧
    Store.get (runOps (initDB prior classNames seats) ops) (SchedKey.classKey n)
      = Store.get (initDB prior classNames seats) (SchedKey.classKey n) := by
  have hrun := get_runOps_class ops (initDB prior classNames seats) n
  refine ⟨?_, hrun⟩
  rw [hrun]
  by_cases hn : n ∈ classNames
  · have hv : Store.get (initDB prior classNames seats) (SchedKey.classKey n)
        = some (toString seats) := by
      unfold initDB
      exact get_foldl_set_mem classNames _ seats n hn
    rw [hv]
    simp [hn]
  · have hv : Store.get (initDB prior classNames seats) (SchedKey.classKey n) = none := by
      unfold initDB
      rw [get_foldl_set_notmem classNames _ seats n hn, clearRange_all]
      rfl
    rw [hv]
    simp [hn]

/-- C8 witness: the invariant instantiated after initialize(["a"], 3)
followed by one signup. -/
theorem class_keys_invariant_witness :
    Store.get (runOps (initDB ([] : Store) ["a"] 3) [SchedOp.signupOp "s" "a"])
        (SchedKey.classKey "a")
      = Store.get (initDB ([] : Store) ["a"] 3) (SchedKey.classKey "a") :=
  (class_keys_invariant ([] : Store) ["a"] 3 [SchedOp.signupOp "s" "a"] "a").2

/-- C9: round-trip symmetry — from any state where class c has seat value
toString k and student s is not enrolled, signup(s, c) followed by
drop(s, c) returns to exactly the starting state, so c's seat value is
again toString k and no AttendanceRecord for (s, c) remains. -/
theorem signup_drop_roundtrip (st : Store) (s c : String) (k : Int)
    (hseats : Store.get st (SchedKey.classKey c) = some (toString k))
    (hrec : Store.get st (SchedKey.attendKey s c) = none) :
    signup st s c = Except.ok (Store.set st (SchedKey.attendKey s c) "") ∧
    drop (Store.set st (SchedKey.attendKey s c) "") s c = Except.ok st ∧
    Store.get st (SchedKey.classKey c) = some (toString k) ∧
    Store.get st (SchedKey.attendKey s c) = none := by
  refine ⟨rfl, ?_, hseats, hrec⟩
  show Except.ok
      (Store.clear (Store.set st (SchedKey.attendKey s c) "") (SchedKey.attendKey s c))
    = Except.ok st
  rw [Store.clear_set st _ "" hrec]

/-- C9 witness: the round trip in the concrete state where class "math"
has seat value "2". -/
theorem signup_drop_roundtrip_witness :
    Store.get [(SchedKey.classKey "math", toString (2 : Int))] (SchedKey.classKey "math")
      = some (toString (2 : Int)) ∧
    Store.get [(SchedKey.classKey "math", toString (2 : Int))] (SchedKey.attendKey "s" "math")
      = none ∧
    drop (Store.set [(SchedKey.classKey "math", toString (2 : Int))]
        (SchedKey.attendKey "s" "math") "") "s" "math"
      = Except.ok [(SchedKey.classKey "math", toString (2 : Int))] := by
  have hthm := signup_drop_roundtrip [(SchedKey.classKey "math", toString (2 : Int))]
    "s" "math" 2 (by decide) (by decide)
  exact ⟨by decide, by decide, hthm.2.1⟩

theorem manualSignup_all_none (attempts : Nat → Option FdbError)
    (onError : FdbError → Option FdbError) (hall : ∀ j, attempts j = none) :
    ∀ (fuel i : Nat), manualSignup attempts onError i fuel = none
  | 0, _ => rfl
  | fuel + 1, i => by
    simp only [manualSignup]
    rw [hall i, afterWrapped_none]
    exact manualSignup_all_none attempts onError hall fuel (i + 1)

theorem manualSignup_some_is_error (attempts : Nat → Option FdbError)
    (onError : FdbError → Option FdbError) :
    ∀ (fuel i : Nat) (r : Option FdbError),
      manualSignup attempts onError i fuel = some r → ∃ e, r = some e
  | 0, i, r, h => by simp [manualSignup] at h
  | fuel + 1, i, r, h => by
    simp only [manualSignup] at h
    cases hatt : attempts i with
    | some e =>
      rw [hatt, afterWrapped_some] at h
      simp at h
      exact ⟨e, h.symm⟩
    | none =>
      rw [hatt, afterWrapped_none] at h
      exact manualSignup_some_is_error attempts onError fuel (i + 1) r h

theorem manualSignup_onError_irrel (attempts : Nat → Option FdbError) :
    ∀ (fuel i : Nat) (onE onE2 : FdbError → Option FdbError),
      manualSignup attempts onE i fuel = manualSignup attempts onE2 i fuel
  | 0, _, _, _ => rfl
  | fuel + 1, i, onE, onE2 => by
    simp only [manualSignup]
    cases hatt : attempts i with
    | some e => rw [afterWrapped_some, afterWrapped_some]
    | none =>
      rw [afterWrapped_none, afterWrapped_none]
      exact manualSignup_onError_irrel attempts fuel (i + 1) onE onE2

/-- C10: the manual retry loop terminates only through its error path.
If the i-th wrapped() call yields a non-nil error the loop returns it at
the first error check; if every wrapped() call yields nil the loop never
returns within any fuel bound; every value the loop does return is an
error, never a success; and the result never depends on OnError, because
the OnError step is unreachable. -/
theorem manualSignup_error_path (attempts : Nat → Option FdbError)
    (onError : FdbError → Option FdbError) (i fuel : Nat) :
    (∀ e, attempts i = some e → manualSignup attempts onError i (fuel + 1) = some (some e)) ∧
    ((∀ j, attempts j = none) → manualSignup attempts onError i fuel = none) ∧
    (∀ r, manualSignup attempts onError i fuel = some r → ∃ e, r = some e) ∧
    (∀ onError2, manualSignup attempts onError i fuel
      = manualSignup attempts onError2 i fuel) := by
  refine ⟨?_, ?_, ?_, ?_⟩
  · intro e he
    simp only [manualSignup]
    rw [he, afterWrapped_some]
  · intro hall
    exact manualSignup_all_none attempts onError hall fuel i
  · intro r h
    exact manualSignup_some_is_error attempts onError fuel i r h
  · intro onError2
    exact manualSignup_onError_irrel attempts fuel i onError onError2

/-- C10 witness: the theorem applied to the run whose every commit fails
with error 7 — the loop returns it from the first attempt — and to the
run whose every commit succeeds — the loop is still running after six
iterations. -/
theorem manualSignup_error_path_witness :
    ((fun _ => (some 7 : Option FdbError)) 0 = some 7) ∧
    manualSignup (fun _ => some 7) (fun _ => none) 0 4 = some (some 7) ∧
    manualSignup (fun _ => none) (fun _ => some 9) 0 6 = none := by
  refine ⟨rfl, ?_, ?_⟩
  · exact (manualSignup_error_path (fun _ => some 7) (fun _ => none) 0 3).1 7 rfl
  · exact (manualSignup_error_path (fun _ => none) (fun _ => some 9) 0 6).2.1 (fun j => rfl)
